import Mathlib

/-!
# Shallow embedding of the `shoju` partition core (src/partition/*)

This file models the record codec (`src/partition/record.rs`), the log file
(`src/partition/log.rs`), the sparse index (`src/partition/index.rs`), the
segment (`src/partition/segment.rs`) and the partition (`src/partition/mod.rs`)
of the shoju commit-log store, and proves / refutes the frozen claims about it.

Modelling conventions:
* Byte strings are `List Nat`; the Rust `u8` range is irrelevant to every
  statement proved here (the codec length fields are produced by `toBytesBE`,
  which yields digits `< 256` by construction).
* Machine-integer casts (`as u32`) are modelled with an explicit `% 2^32`
  at the cast sites.  Rust `u64`/`usize` subtractions are modelled with
  truncated `Nat` subtraction; in Rust a debug build panics (release wraps)
  when such a subtraction underflows.  Every theorem below operates in ranges
  where no underflow occurs, so the two semantics agree there; comments mark
  each site.
* Fallible operations return `Except Err _`.  `Err.io code` stands for a
  propagated `std::io::Error` (decode failures surface as the
  `UnexpectedEof` error of `byteorder`, modelled as `Err.io 0`); `Err.panicked`
  stands for a Rust panic (slice out of range, `unwrap` on `None`,
  the explicit `panic!()` in `Partition::append_record`).
* Wall-clock timestamps (`Record::new` reads the system clock) are threaded
  as explicit inputs.
* Memory-mapped files: the `Log` keeps the whole `max_size`-byte mapping as a
  `List Nat`; since the mapping is backed by the file itself, the on-disk file
  contents equal the mapping, and `flush`/`flush_async` are no-ops of the
  model (they only force durability, which the restart model assumes after a
  `flush`, exactly the situation of the durability claim).
-/

namespace Shoju

/-- `2^32`, the modulus of a Rust `u32` cast. -/
def u32Mod : Nat := 2 ^ 32

/-- Constant `LOG_MAX_SIZE` from `src/partition/mod.rs`. -/
def LOG_MAX_SIZE : Nat := 4096

/-- Constant `OFFSET_INTERVAL` from `src/partition/mod.rs`. -/
def OFFSET_INTERVAL : Nat := 16

/-- Constant `ENTRY_SIZE` from `src/partition/index.rs`. -/
def ENTRY_SIZE : Nat := 8

/-- Error outcomes of the embedded operations: a propagated `io::Error`
(with an opaque code) or a Rust panic. -/
inductive Err where
  | io (code : Nat) : Err
  | panicked : Err
deriving DecidableEq, Repr

instance {ε α : Type} [DecidableEq ε] [DecidableEq α] : DecidableEq (Except ε α)
  | .ok x, .ok y =>
    if h : x = y then .isTrue (by rw [h]) else .isFalse (by simp [h])
  | .ok _, .error _ => .isFalse (by simp)
  | .error _, .ok _ => .isFalse (by simp)
  | .error e, .error f =>
    if h : e = f then .isTrue (by rw [h]) else .isFalse (by simp [h])

/-- Big-endian encoding of `v` on `width` bytes (`byteorder::NetworkEndian`).
Encodes `v % 256^width`, which is exactly what writing a `u64`/`u128`/`u32`
field does. -/
def toBytesBE : Nat → Nat → List Nat
  | 0, _ => []
  | width + 1, v => toBytesBE width (v / 256) ++ [v % 256]

/-- Big-endian decoding of a byte list (`byteorder::NetworkEndian` reads). -/
def fromBytesBE (bs : List Nat) : Nat :=
  bs.foldl (fun acc b => acc * 256 + b) 0

/-- Reading exactly `n` bytes from a sequential reader: `read_exact` /
`read_uXX`.  Fails (UnexpectedEof) when fewer than `n` bytes remain. -/
def readBytes (n : Nat) (bs : List Nat) : Except Err (List Nat × List Nat) :=
  if n ≤ bs.length then .ok (bs.take n, bs.drop n) else .error (.io 0)

/-- `Record` from `src/partition/record.rs`. -/
structure Record where
  offset : Nat
  timestamp : Nat
  key : Option (List Nat)
  value : List Nat
deriving DecidableEq, Repr

/-- `Record::binary_size`. -/
def Record.binary_size (r : Record) : Nat :=
  8 + 16 + 4 + r.value.length + 4 + (r.key.map List.length).getD 0

/-- `Record::write`: the produced byte sequence (the Rust function writes into
a `Write` sink and returns `binary_size`; the model returns the bytes). -/
def Record.write (r : Record) : List Nat :=
  toBytesBE 8 r.offset ++ toBytesBE 16 r.timestamp ++
    (match r.key with
     | some k => toBytesBE 4 k.length ++ k
     | none => toBytesBE 4 0) ++
    toBytesBE 4 r.value.length ++ r.value

/-- Tail of `Record::from_binary`: read the value length and the value and
assemble the record. -/
def Record.readValue (offset timestamp : Nat) (key : Option (List Nat))
    (bs : List Nat) : Except Err (Record × List Nat) :=
  match readBytes 4 bs with
  | .error e => .error e
  | .ok (vl, bs1) =>
    match readBytes (fromBytesBE vl) bs1 with
    | .error e => .error e
    | .ok (vb, bs2) => .ok (⟨offset, timestamp, key, vb⟩, bs2)

/-- `Record::from_binary` over a sequential byte source; returns the decoded
record and the unconsumed remainder of the source. -/
def Record.from_binary (bs : List Nat) : Except Err (Record × List Nat) :=
  match readBytes 8 bs with
  | .error e => .error e
  | .ok (ob, bs1) =>
    match readBytes 16 bs1 with
    | .error e => .error e
    | .ok (tb, bs2) =>
      match readBytes 4 bs2 with
      | .error e => .error e
      | .ok (kl, bs3) =>
        let ksize := fromBytesBE kl
        if 0 < ksize then
          match readBytes ksize bs3 with
          | .error e => .error e
          | .ok (kb, bs4) =>
            Record.readValue (fromBytesBE ob) (fromBytesBE tb) (some kb) bs4
        else
          Record.readValue (fromBytesBE ob) (fromBytesBE tb) none bs3

/-- Well-formedness of a record: every bound the Rust types impose (`u64`
offset, `u128` timestamp, lengths below `2^32` as written by the `as u32`
casts).  An *empty* `Some` key is well formed; the round-trip claims below are
exactly about that corner. -/
def RecordWF (r : Record) : Prop :=
  r.offset < 256 ^ 8 ∧ r.timestamp < 256 ^ 16 ∧
    (r.key.map List.length).getD 0 < 256 ^ 4 ∧ r.value.length < 256 ^ 4

instance (r : Record) : Decidable (RecordWF r) := by
  unfold RecordWF; infer_instance

/-! ## Sparse index (`src/partition/index.rs`) -/

/-- `Position` from `src/partition/index.rs`: one 8-byte index entry. -/
structure Position where
  relative_offset : Nat
  position : Nat
deriving DecidableEq, Repr

instance : Inhabited Position := ⟨0, 0⟩

/-- `FindResult` from `src/partition/index.rs` (`src/partition/segment.rs`
matches the two-position variant under the name `Ahead`; same shape). -/
inductive FindResult where
  | Punctual (p : Position) : FindResult
  | Around (lo hi : Position) : FindResult
deriving DecidableEq, Repr

/-- `Index` from `src/partition/index.rs`.  The backing file is a flat array
of 8-byte entries, modelled as the list of decoded entries (`Position::write`
and `Position::from_binary` are two big-endian `u32`s and invert each other
byte-for-byte); `size` is the separately tracked byte size field. -/
structure Index where
  entries : List Position
  size : Nat
  base_offset : Nat
  offset_interval : Nat
deriving DecidableEq, Repr

/-- `Index::new`: fresh empty index file. -/
def Index.new (base_offset offset_interval : Nat) : Index :=
  ⟨[], 0, base_offset, offset_interval⟩

/-- `Index::load_from_disk`: `size` is read from the file metadata, i.e.
8 bytes per stored entry. -/
def Index.load_from_disk (file : List Position) (base_offset offset_interval : Nat) :
    Index :=
  ⟨file, ENTRY_SIZE * file.length, base_offset, offset_interval⟩

/-- `Index::append_position`.  `offset` is the `u32` the caller passed
(`last_offset as u32`); the Rust body widens it to `u64`, subtracts
`base_offset` (in range for every reachable state; a debug build would panic
on underflow, modelled as truncation) and narrows back `as u32`. -/
def Index.append_position (ix : Index) (offset log_size : Nat) : Index :=
  let relative_offset := (offset - ix.base_offset) % u32Mod
  { ix with
    entries := ix.entries ++ [⟨relative_offset, log_size⟩],
    size := ix.size + ENTRY_SIZE }

/-- One fuelled unfolding of the `binary_search_by` loop; `fuel` only forces
structural termination and never runs out when `right - left ≤ fuel`, since
the span shrinks by at least one per iteration. -/
def binSearchGo (keys : List Nat) (v : Nat) : Nat → Nat → Nat → Nat
  | 0, left, _right => left
  | fuel + 1, left, right =>
    if left < right then
      let mid := left + (right - left) / 2
      if keys.getD mid 0 ≤ v then binSearchGo keys v fuel (mid + 1) right
      else binSearchGo keys v fuel left mid
    else left

/-- The loop of `slice::binary_search_by` for a comparator that orders an
element `Less` iff its key is `≤ v` and `Greater` otherwise (the source's
`cmp(..).then(Ordering::Less)` comparators never return `Equal`, so the
early-`Ok` branch of `binary_search_by` is unreachable and the search always
lands in `Err(n)`; this function computes that `n`).  The initial fuel
`right - left` bounds the iteration count, so the fuelled loop is exactly the
Rust loop. -/
def binSearchLoop (keys : List Nat) (v : Nat) (left right : Nat) : Nat :=
  binSearchGo keys v (right - left) left right

/-- `Index::find_offset`.  `offset` is the `u32` passed by
`Segment::read_at` (`offset as u32`); the body widens to `u64`, subtracts
`base_offset` and narrows `as u32` (underflow modelled as truncation, in
range for every state considered by the theorems).  The `mmap[starting_offset..]`
slice panics when `starting_offset` exceeds the file length; `positions[0]`
panics on an empty window; both are modelled as `Err.panicked`.  A zero
`offset_interval` would make the Rust division panic; every state here has
interval 16. -/
def Index.relOf (ix : Index) (offset : Nat) : Nat :=
  (offset - ix.base_offset) % u32Mod

/-- The byte position at which `find_offset` starts mapping index entries:
`(rel / interval) * ENTRY_SIZE`, backed up by one entry unless already 0. -/
def Index.startingOffset (ix : Index) (relative_offset : Nat) : Nat :=
  let so0 := relative_offset / ix.offset_interval * ENTRY_SIZE
  if so0 = 0 then so0 else so0 - ENTRY_SIZE

/-- The window of entries `find_offset` materialises: `mmap[starting_offset..]`
decoded in 8-byte chunks. -/
def Index.window (ix : Index) (relative_offset : Nat) : List Position :=
  ix.entries.drop (ix.startingOffset relative_offset / ENTRY_SIZE)

def Index.find_offset (ix : Index) (offset : Nat) : Except Err FindResult :=
  if ix.size = 0 then .ok (.Around ⟨0, 0⟩ ⟨0, 0⟩)
  else
    let relative_offset := ix.relOf offset
    if ENTRY_SIZE * ix.entries.length < ix.startingOffset relative_offset
    then .error .panicked
    else
      let positions := ix.window relative_offset
      let n := binSearchLoop (positions.map Position.relative_offset)
        relative_offset 0 positions.length
      if n = 0 then
        match positions with
        | [] => .error .panicked
        | p0 :: _ =>
          .ok (.Around ⟨p0.relative_offset - ix.offset_interval, 0⟩ p0)
      else
        let ip := positions.getD (n - 1) default
        if relative_offset % ix.offset_interval = 0 ∨ n = positions.length
        then .ok (.Punctual ip)
        else .ok (.Around ip (positions.getD n default))

/-! ## Log file (`src/partition/log.rs`) -/

/-- `Log` from `src/partition/log.rs`.  `mmap` is the full `max_size`-byte
writable mapping (equal to the on-disk file contents). -/
structure Log where
  mmap : List Nat
  max_size : Nat
  size : Nat
  base_offset : Nat
  current_offset : Nat
deriving DecidableEq, Repr

/-- `Log::new`: create the file, `set_len(max_size)` (zero filled), map it. -/
def Log.new (base_offset max_size : Nat) : Log :=
  ⟨List.replicate max_size 0, max_size, 0, base_offset, base_offset⟩

/-- `file.set_len(n)` on a file whose contents are `file`: truncate or
zero-extend to exactly `n` bytes. -/
def setLen (file : List Nat) (n : Nat) : List Nat :=
  file.take n ++ List.replicate (n - file.length) 0

/-- Fuelled unfolding of the record-counting loop of `Log::load_from_disk`;
the fuel never runs out when `bs.length ≤ fuel` (a successful decode consumes
at least 32 bytes, and decoding an empty source fails). -/
def countGo : Nat → List Nat → Nat
  | 0, _ => 0
  | fuel + 1, bs =>
    match Record.from_binary bs with
    | .ok (_, rest) => countGo fuel rest + 1
    | .error _ => 0

/-- The record-counting loop of `Log::load_from_disk`: decode records
sequentially until the first decode error (note that 32 zero bytes decode as a
valid empty record, so the zero padding of a preallocated log file is counted
too — faithful to the source).  The initial fuel `bs.length` bounds the
iteration count, so the fuelled loop is exactly the Rust loop. -/
def countRecords (bs : List Nat) : Nat := countGo bs.length bs

/-- `Log::load_from_disk`: `size` is the persisted file length, the current
offset is `base_offset` plus the number of decodable records from the start,
and the file is extended to `max_size` and remapped. -/
def Log.load_from_disk (file : List Nat) (base_offset max_size : Nat) : Log :=
  { mmap := setLen file max_size,
    max_size := max_size,
    size := file.length,
    base_offset := base_offset,
    current_offset := base_offset + countRecords file }

/-- `Log::can_fit`. -/
def Log.can_fit (l : Log) (buffer_size : Nat) : Prop :=
  l.max_size - l.size ≥ buffer_size

instance (l : Log) (n : Nat) : Decidable (l.can_fit n) := by
  unfold Log.can_fit; infer_instance

/-- Overwrite `data.length` bytes of `mmap` starting at byte `pos`
(`(&mut mmap[pos..pos+len]).write(data)`; in range whenever the caller
checked `can_fit`, which every caller does). -/
def writeAt (mmap : List Nat) (pos : Nat) (data : List Nat) : List Nat :=
  mmap.take pos ++ data ++ mmap.drop (pos + data.length)

/-- `Log::append_record` (the byte-level append): write the buffer at offset
`size`, advance `size`, assign `current_offset` and return
`(latest_offset, size as u32)`. -/
def Log.append_record (l : Log) (record_data : List Nat) : (Nat × Nat) × Log :=
  ((l.current_offset, l.size % u32Mod),
   { l with
      mmap := writeAt l.mmap l.size record_data,
      size := l.size + record_data.length,
      current_offset := l.current_offset + 1 })

/-- `Log::read_at`: the slice `&mmap[offset..size]`; slicing out of range is
a Rust panic. -/
def Log.read_at (l : Log) (offset size : Nat) : Except Err (List Nat) :=
  if offset ≤ size ∧ size ≤ l.mmap.length
  then .ok ((l.mmap.drop offset).take (size - offset))
  else .error .panicked

/-! ## Segment (`src/partition/segment.rs`) -/

/-- `SegmentError` from `src/partition/segment.rs`. -/
inductive SegmentError where
  | Io (code : Nat) : SegmentError
  | FullSegment : SegmentError
deriving DecidableEq, Repr

/-- `Segment` from `src/partition/segment.rs`. -/
structure Segment where
  log : Log
  index : Index
  base_offset : Nat
  prev_offset : Nat
  offset_interval : Nat
  active : Bool
deriving DecidableEq, Repr

instance : Inhabited Segment :=
  ⟨⟨[], 0, 0, 0, 0⟩, Index.new 0 0, 0, 0, 0, false⟩

/-- `Segment::new` (log and index files are created under `LOG_MAX_SIZE`). -/
def Segment.new (base_offset offset_interval : Nat) (active : Bool) : Segment :=
  { log := Log.new base_offset LOG_MAX_SIZE,
    index := Index.new base_offset offset_interval,
    base_offset := base_offset,
    prev_offset := base_offset,
    offset_interval := offset_interval,
    active := active }

/-- `Segment::latest_offset`. -/
def Segment.latest_offset (s : Segment) : Nat := s.log.current_offset

/-- `Segment::size`. -/
def Segment.size (s : Segment) : Nat := s.log.size

/-- `Segment::seal`. -/
def Segment.seal (s : Segment) : Segment := { s with active := false }

/-- `Segment::load_from_disk`: reload log and index from the two on-disk
files and recompute `prev_offset` from the reloaded `current_offset`. -/
def Segment.load_from_disk (logFile : List Nat) (indexFile : List Position)
    (base_offset offset_interval : Nat) (active : Bool) : Segment :=
  let log := Log.load_from_disk logFile base_offset LOG_MAX_SIZE
  let prev_offset :=
    if log.current_offset = 0 then 0
    else if log.current_offset < offset_interval then log.current_offset
    else if log.current_offset % offset_interval = 0 then
      log.current_offset - offset_interval
    else log.current_offset - log.current_offset % offset_interval
  { log := log,
    index := Index.load_from_disk indexFile base_offset offset_interval,
    base_offset := base_offset,
    prev_offset := prev_offset,
    offset_interval := offset_interval,
    active := active }

/-- `Segment::append_record`.  The record timestamp (`Record::new` reads the
wall clock) is an explicit input.  On `FullSegment` nothing has been written.
`log.flush` / `index.flush` at the end are no-ops of the model.  The
`last_offset - prev_offset` comparison is Rust `u64` subtraction (in range on
every reachable state, modelled as truncated subtraction), and
`append_position` receives `last_offset as u32`. -/
def Segment.append_record (s : Segment) (key : Option (List Nat))
    (value : List Nat) (ts : Nat) : Except SegmentError Unit × Segment :=
  let record : Record := ⟨s.latest_offset, ts, key, value⟩
  if ¬ s.log.can_fit record.binary_size then (.error .FullSegment, s)
  else
    let buffer := record.write
    let res := s.log.append_record buffer
    let last_offset := res.1.1
    let log_size := res.1.2
    if last_offset - s.prev_offset ≥ s.offset_interval then
      (.ok Unit.unit,
       { s with
          log := res.2,
          index := s.index.append_position (last_offset % u32Mod) log_size,
          prev_offset := last_offset })
    else
      (.ok Unit.unit, { s with log := res.2 })

/-- Fuelled unfolding of the forward-scan loop of the `Punctual` arm of
`Segment::read_at`; the fuel never runs out when `remaining ≤ fuel`, since
`remaining` shrinks by at least one (`binary_size ≥ 32`) per iteration. -/
def scanGo (target : Nat) : Nat → List Nat → Record → Nat → Except Err Record
  | 0, _bs, record, _remaining => .ok record
  | fuel + 1, bs, record, remaining =>
    if remaining = 0 then .ok record
    else
      match Record.from_binary bs with
      | .error e => .error e
      | .ok (r, rest) =>
        if r.offset = target then .ok r
        else scanGo target fuel rest r (remaining - r.binary_size)

/-- The forward-scan loop of the `Punctual` arm of `Segment::read_at`
(`while remaining_bytes > 0 && stop == false`); returns the last decoded
record.  `remaining_bytes -= binary_size` is a `usize` subtraction, modelled
as truncated subtraction (in range whenever the slice holds whole records).
The initial fuel `remaining` bounds the iteration count, so the fuelled loop
is exactly the Rust loop. -/
def scanLoop (target : Nat) (bs : List Nat) (record : Record)
    (remaining : Nat) : Except Err Record :=
  scanGo target remaining bs record remaining

/-- The bounded-decode loop of the `Around` arm of `Segment::read_at`: decode
`count` records from the slice and return the last one
(`records.last().unwrap()` panics when the count is zero). -/
def readLastRecord (bs : List Nat) : Nat → Except Err Record
  | 0 => .error .panicked
  | 1 =>
    match Record.from_binary bs with
    | .error e => .error e
    | .ok (r, _) => .ok r
  | n + 2 =>
    match Record.from_binary bs with
    | .error e => .error e
    | .ok (_, rest) => readLastRecord rest (n + 1)

/-- `Segment::read_at`.  The index is consulted with `offset as u32`; the
`Around` arm computes `offset - base_offset - relative_offset + 1` in `u64`
(in range for every state considered here, modelled as truncated
subtraction). -/
def Segment.read_at (s : Segment) (offset : Nat) : Except Err Record :=
  match s.index.find_offset (offset % u32Mod) with
  | .error e => .error e
  | .ok (.Punctual op) =>
    match s.log.read_at op.position s.size with
    | .error e => .error e
    | .ok slice =>
      match Record.from_binary slice with
      | .error e => .error e
      | .ok (record, rest) =>
        if record.offset = offset then .ok record
        else scanLoop offset rest record
          (s.size - op.position - record.binary_size)
  | .ok (.Around op next) =>
    let offset_count := offset - s.base_offset - op.relative_offset + 1
    match s.log.read_at op.position next.position with
    | .error e => .error e
    | .ok slice => readLastRecord slice offset_count

/-! ## Partition (`src/partition/mod.rs`) -/

/-- `Partition` from `src/partition/mod.rs`. -/
structure Partition where
  segments : List Segment
  active_segment_index : Nat
deriving DecidableEq, Repr

/-- `Partition::active_segment`: `&mut self.segments[active_segment_index]`
(indexing panics out of range; every state considered here is in range). -/
def Partition.activeSegment (p : Partition) : Segment :=
  p.segments.getD p.active_segment_index default

/-- `Partition::init` on an empty log directory: one fresh active segment at
base offset 0. -/
def Partition.initEmpty : Partition :=
  { segments := [Segment.new 0 OFFSET_INTERVAL true], active_segment_index := 0 }

/-- One on-disk segment: the two files `{base:020}.log` / `{base:020}.index`
of a base offset. -/
structure DiskSeg where
  base : Nat
  logFile : List Nat
  indexFile : List Position
deriving DecidableEq, Repr

/-- The log directory contents of a partition: for every segment, its base
offset (the filename stem) together with the log file (the preallocated
`max_size`-byte mapping) and the index file.  This is what a restart sees
after a `flush`. -/
def Partition.diskOf (p : Partition) : List DiskSeg :=
  p.segments.map (fun s => ⟨s.base_offset, s.log.mmap, s.index.entries⟩)

/-- `Partition::init` on a directory holding the given segments.  The Rust
code collects the distinct filename stems, sorts them (20-digit zero-padded
decimals, so lexicographic = numeric order), loads every one with
`Segment::load_from_disk` (all with `active = false`) and makes the last the
active segment; `disk` is that sorted list. -/
def Partition.init (disk : List DiskSeg) : Partition :=
  if disk.isEmpty then Partition.initEmpty
  else
    { segments := disk.map
        (fun d => Segment.load_from_disk d.logFile d.indexFile d.base
          OFFSET_INTERVAL false),
      active_segment_index := disk.length - 1 }

/-- `Partition::flush`: `flush_async` on the active segment's mapping — a
no-op of the model (the mapping is the file). -/
def Partition.flush (p : Partition) : Except Err Unit × Partition :=
  (.ok Unit.unit, p)

/-- `Partition::new_active_segment`: seal the active segment, push a fresh
segment based at its `latest_offset`, bump the active index. -/
def Partition.new_active_segment (p : Partition) : Partition :=
  let latest_offset := p.activeSegment.latest_offset
  let sealed := p.segments.set p.active_segment_index p.activeSegment.seal
  { segments := sealed ++ [Segment.new latest_offset OFFSET_INTERVAL true],
    active_segment_index := p.active_segment_index + 1 }

/-- The error-propagation structure of `Partition::append_record`, verbatim
from the source `match`: `Ok` passes through, `FullSegment` defers to the
result of the retry on the freshly rolled segment (`Err(_) => panic!()`),
`Io(e)` is returned to the caller. -/
def appendErrorDispatch (first retry : Except SegmentError Unit) :
    Except Err Unit :=
  match first with
  | .ok _ => .ok Unit.unit
  | .error .FullSegment =>
    match retry with
    | .ok _ => .ok Unit.unit
    | .error _ => .error .panicked
  | .error (.Io e) => .error (.io e)

/-- `Partition::append_record`: try the active segment; on `FullSegment`,
roll a new active segment and retry once, panicking if the retry fails too;
an `Io` error is returned. -/
def Partition.append_record (p : Partition) (key : Option (List Nat))
    (value : List Nat) (ts : Nat) : Except Err Unit × Partition :=
  let att := p.activeSegment.append_record key value ts
  match att.1 with
  | .ok _ =>
    (.ok Unit.unit,
     { p with segments := p.segments.set p.active_segment_index att.2 })
  | .error .FullSegment =>
    let rolled := p.new_active_segment
    let retry := rolled.activeSegment.append_record key value ts
    let p2 :=
      { rolled with
          segments := rolled.segments.set rolled.active_segment_index retry.2 }
    match retry.1 with
    | .ok _ => (.ok Unit.unit, p2)
    | .error _ => (.error .panicked, p2)
  | .error (.Io e) => (.error (.io e), p)

/-- `Partition::find_record`: route the offset to a segment and read there.
The `binary_search_by` comparator `base_offset.cmp(&v).then(Less)` never
returns `Equal`, so the search always takes the `Err(n)` arm with `n` the
loop result modelled by `binSearchLoop`. -/
def Partition.find_record (p : Partition) (offset : Nat) : Except Err Record :=
  if offset = p.activeSegment.base_offset then p.activeSegment.read_at offset
  else if 0 < p.segments.length ∧ offset < (p.segments.getD 0 default).base_offset
  then p.activeSegment.read_at offset
  else
    let n := binSearchLoop (p.segments.map Segment.base_offset) offset 0
      p.segments.length
    if n = 0 then
      if p.segments.length = 0 then p.activeSegment.read_at offset
      else (p.segments.getD 0 default).read_at offset
    else (p.segments.getD (n - 1) default).read_at offset

/-- One append request: the key/value pair passed to
`Partition::append_record`, plus the wall-clock timestamp `Record::new`
would capture. -/
structure AppendInput where
  key : Option (List Nat)
  value : List Nat
  ts : Nat
deriving DecidableEq, Repr

/-- Run a sequence of appends, stopping at the first failure (the way every
caller uses `?` on `append_record`). -/
def runAppends (p : Partition) : List AppendInput → Except Err Partition
  | [] => .ok p
  | i :: is =>
    let r := p.append_record i.key i.value i.ts
    match r.1 with
    | .ok _ => runAppends r.2 is
    | .error e => .error e

/-- The record the k-th append of a run constructs (offset `k`, the input's
key, value and timestamp). -/
def mkRecord (k : Nat) (i : AppendInput) : Record :=
  ⟨k, i.ts, i.key, i.value⟩

/-! ## Concrete scenario states used by individual claims -/

/-- The partition obtained from one append of `(key = "k", value = [1, 2])`
on a fresh partition (spec scenario "tiny roundtrip"; `107` is the byte
`'k'`). -/
def tinyRunC1 : Partition :=
  match runAppends Partition.initEmpty [⟨some [107], [1, 2], 5⟩] with
  | .ok p => p
  | .error _ => Partition.initEmpty

/-- The partition obtained from one append of `(key absent,
value = [0, 0, 1, 0])` on a fresh partition. -/
def tinyRunC3 : Partition :=
  match runAppends Partition.initEmpty [⟨none, [0, 0, 1, 0], 7⟩] with
  | .ok p => p
  | .error _ => Partition.initEmpty

/-- `tinyRunC3` flushed and re-initialised from its directory contents
(process restart). -/
def tinyReloadC3 : Partition := Partition.init (Partition.diskOf (tinyRunC3.flush).2)

/-- The partition obtained from 17 appends of `(key absent,
value = [0, 0, 1, 0])` on a fresh partition (spec scenario "sparse index
sampling"). -/
def seventeenRun : Partition :=
  match runAppends Partition.initEmpty (List.replicate 17 ⟨none, [0, 0, 1, 0], 0⟩) with
  | .ok p => p
  | .error _ => Partition.initEmpty

/-! ## Reachability invariant used by the partition-level claims -/

/-- Cumulative base offset: the sum of the record counts of the first `i`
segments, i.e. the base offset segment `i` receives. -/
def baseAt (counts : List Nat) (i : Nat) : Nat := (counts.take i).sum

/-- The bookkeeping slice of one segment state the partition-level claims
depend on: segment `i` holds `cnt` records starting at base offset `b`. -/
def segSlim (s : Segment) (b cnt : Nat) : Prop :=
  s.base_offset = b ∧
  s.log.base_offset = b ∧
  s.log.current_offset = b + cnt ∧
  s.log.max_size = LOG_MAX_SIZE ∧
  s.log.size ≤ LOG_MAX_SIZE

/-- The partition-level reachability invariant: `counts` lists the record
counts of the segments in order, bases are the cumulative counts, and the
active segment is the last one. -/
def PartSlim (p : Partition) (counts : List Nat) : Prop :=
  counts ≠ [] ∧
  p.segments.length = counts.length ∧
  p.active_segment_index = counts.length - 1 ∧
  ∀ i, i < counts.length →
    segSlim (p.segments.getD i default) (baseAt counts i) (counts.getD i 0)

/-- Segment `i` of partition `p` covers offset `o`: its base offset is at
most `o` and either it is the last segment or `o` lies below the next
segment's base offset. -/
def Covers (p : Partition) (i o : Nat) : Prop :=
  i < p.segments.length ∧
  (p.segments.getD i default).base_offset ≤ o ∧
  (i + 1 = p.segments.length ∨ o < (p.segments.getD (i + 1) default).base_offset)

/-- The partition obtained from two appends on a fresh partition. -/
def twoRun : Partition :=
  match runAppends Partition.initEmpty [⟨none, [1], 0⟩, ⟨some [2], [3], 1⟩] with
  | .ok p => p
  | .error _ => Partition.initEmpty

/-! ## Supporting lemmas about the codec -/

theorem toBytesBE_length (width v : Nat) : (toBytesBE width v).length = width := by
  induction width generalizing v with
  | zero => rfl
  | succ w ih => simp [toBytesBE, ih]

theorem fromBytesBE_append_singleton (bs : List Nat) (b : Nat) :
    fromBytesBE (bs ++ [b]) = fromBytesBE bs * 256 + b := by
  simp [fromBytesBE, List.foldl_append]

theorem fromBytesBE_toBytesBE (width v : Nat) (h : v < 256 ^ width) :
    fromBytesBE (toBytesBE width v) = v := by
  induction width generalizing v with
  | zero =>
    interval_cases v
    rfl
  | succ w ih =>
    have hdiv : v / 256 < 256 ^ w := by
      rw [Nat.div_lt_iff_lt_mul (by norm_num)]
      calc v < 256 ^ (w + 1) := h
        _ = 256 ^ w * 256 := by ring
    have := ih (v / 256) hdiv
    rw [toBytesBE, fromBytesBE_append_singleton, this]
    omega

theorem readBytes_append (xs rest : List Nat) :
    readBytes xs.length (xs ++ rest) = .ok (xs, rest) := by
  simp [readBytes, List.take_left, List.drop_left]

theorem readBytes_exact (n : Nat) (xs rest : List Nat) (h : xs.length = n) :
    readBytes n (xs ++ rest) = .ok (xs, rest) := by
  subst h; exact readBytes_append xs rest

theorem readBytes_ok_length {n : Nat} {bs xs rest : List Nat}
    (h : readBytes n bs = .ok (xs, rest)) : rest.length + n = bs.length := by
  unfold readBytes at h
  split at h
  · simp only [Except.ok.injEq, Prod.mk.injEq] at h
    obtain ⟨h1, h2⟩ := h
    subst h2
    simp
    omega
  · exact absurd h (by simp)

/-- Decoding the encoding of a well-formed record whose key is not
`Some []` recovers the record and leaves the rest of the source untouched. -/
theorem from_binary_write (r : Record) (rest : List Nat) (hwf : RecordWF r)
    (hkey : r.key ≠ some []) :
    Record.from_binary (r.write ++ rest) = .ok (r, rest) := by
  obtain ⟨hoff, hts, hkl, hvl⟩ := hwf
  obtain ⟨off, ts, key, val⟩ := r
  unfold Record.write Record.from_binary
  cases key with
  | none =>
    simp only [List.append_assoc]
    rw [readBytes_exact 8 _ _ (toBytesBE_length 8 off)]
    simp only
    rw [readBytes_exact 16 _ _ (toBytesBE_length 16 ts)]
    simp only
    rw [readBytes_exact 4 _ _ (toBytesBE_length 4 0)]
    simp only [fromBytesBE_toBytesBE 4 0 (by norm_num)]
    rw [if_neg (by omega)]
    unfold Record.readValue
    rw [readBytes_exact 4 _ _ (toBytesBE_length 4 val.length)]
    simp only [fromBytesBE_toBytesBE 8 off hoff, fromBytesBE_toBytesBE 16 ts hts,
      fromBytesBE_toBytesBE 4 val.length (by simpa using hvl)]
    rw [readBytes_exact val.length _ _ rfl]
  | some k =>
    have hk : k ≠ [] := fun h => hkey (by simp [h])
    have hkpos : 0 < k.length := List.length_pos.mpr hk
    simp only [Option.map_some', Option.getD_some] at hkl
    simp only [List.append_assoc]
    rw [readBytes_exact 8 _ _ (toBytesBE_length 8 off)]
    simp only
    rw [readBytes_exact 16 _ _ (toBytesBE_length 16 ts)]
    simp only
    rw [readBytes_exact 4 _ _ (toBytesBE_length 4 k.length)]
    simp only [fromBytesBE_toBytesBE 4 k.length (by simpa using hkl)]
    rw [if_pos hkpos]
    rw [readBytes_exact k.length _ _ rfl]
    unfold Record.readValue
    simp only
    rw [readBytes_exact 4 _ _ (toBytesBE_length 4 val.length)]
    simp only [fromBytesBE_toBytesBE 8 off hoff, fromBytesBE_toBytesBE 16 ts hts,
      fromBytesBE_toBytesBE 4 val.length (by simpa using hvl)]
    rw [readBytes_exact val.length _ _ rfl]

theorem readValue_consumes {off ts : Nat} {key : Option (List Nat)}
    {bs : List Nat} {r : Record} {rest : List Nat}
    (h : Record.readValue off ts key bs = .ok (r, rest)) :
    rest.length + 4 ≤ bs.length := by
  unfold Record.readValue at h
  split at h
  · exact absurd h (by simp)
  next vl bs1 hv4 =>
    split at h
    · exact absurd h (by simp)
    next vb bs2 hv =>
      simp only [Except.ok.injEq, Prod.mk.injEq] at h
      obtain ⟨-, h2⟩ := h
      subst h2
      have l1 := readBytes_ok_length hv4
      have l2 := readBytes_ok_length hv
      omega

/-- A successful decode consumes at least the 32 fixed header/length bytes. -/
theorem from_binary_consumes {bs : List Nat} {r : Record} {rest : List Nat}
    (h : Record.from_binary bs = .ok (r, rest)) : rest.length + 32 ≤ bs.length := by
  unfold Record.from_binary at h
  split at h
  · exact absurd h (by simp)
  next ob bs1 h8 =>
    split at h
    · exact absurd h (by simp)
    next tb bs2 h16 =>
      split at h
      · exact absurd h (by simp)
      next kl bs3 h4 =>
        have l8 := readBytes_ok_length h8
        have l16 := readBytes_ok_length h16
        have l4 := readBytes_ok_length h4
        simp only at h
        split at h
        · split at h
          · exact absurd h (by simp)
          next kb bs4 hk =>
            have lk := readBytes_ok_length hk
            have := readValue_consumes h
            omega
        · have := readValue_consumes h
          omega

theorem binary_size_pos (r : Record) : 0 < r.binary_size := by
  unfold Record.binary_size; omega

theorem readBytes_ok_fst_length {n : Nat} {bs xs rest : List Nat}
    (h : readBytes n bs = .ok (xs, rest)) : xs.length = n := by
  unfold readBytes at h
  split at h
  · simp only [Except.ok.injEq, Prod.mk.injEq] at h
    obtain ⟨h1, -⟩ := h
    subst h1
    simpa
  · exact absurd h (by simp)

theorem readValue_key {off ts : Nat} {key : Option (List Nat)}
    {bs : List Nat} {r : Record} {rest : List Nat}
    (h : Record.readValue off ts key bs = .ok (r, rest)) : r.key = key := by
  unfold Record.readValue at h
  split at h
  · exact absurd h (by simp)
  · split at h
    · exact absurd h (by simp)
    · simp only [Except.ok.injEq, Prod.mk.injEq] at h
      obtain ⟨h1, -⟩ := h
      subst h1
      rfl

/-- A successfully decoded key is never present-but-empty: either the stored
`key_len` was 0 (key absent) or the key bytes are a non-empty list. -/
theorem from_binary_key_not_empty {bs : List Nat} {r : Record} {rest : List Nat}
    (h : Record.from_binary bs = .ok (r, rest)) : r.key ≠ some [] := by
  unfold Record.from_binary at h
  split at h
  · exact absurd h (by simp)
  next ob bs1 _ =>
    split at h
    · exact absurd h (by simp)
    next tb bs2 _ =>
      split at h
      · exact absurd h (by simp)
      next kl bs3 _ =>
        simp only at h
        split at h
        next hks =>
          split at h
          · exact absurd h (by simp)
          next kb bs4 hk =>
            have hkey := readValue_key h
            have hlen := readBytes_ok_fst_length hk
            rw [hkey]
            intro hcon
            simp only [Option.some.injEq] at hcon
            rw [hcon] at hlen
            simp at hlen
            omega
        · have hkey := readValue_key h
          rw [hkey]
          simp


/-! ## Claim C2: record codec round-trip -/

/-- **C2 counterexample.**  `decode(encode(r)) == r` fails for a record whose
key is `Some` of the empty byte string: the codec writes `key_len = 0` for it,
and the decoder maps `key_len = 0` to an absent key, so the round trip yields
a different record. -/
theorem c2_counterexample :
    Record.from_binary ((⟨5, 7, some [], [3]⟩ : Record).write) =
      .ok (⟨5, 7, none, [3]⟩, []) ∧
    (⟨5, 7, none, [3]⟩ : Record) ≠ (⟨5, 7, some [], [3]⟩ : Record) := by
  exact ⟨by rfl, by decide⟩

/-- **C2 (amended).**  For every record `r` whose key is not `Some` of the
empty byte string (and whose fields are in the ranges the Rust types impose:
`u64` offset, `u128` timestamp, key/value lengths below `2^32`), decoding the
bytes produced by encoding `r` yields exactly `r` with the whole frame
consumed. -/
theorem c2_round_trip (r : Record) (hwf : RecordWF r) (hkey : r.key ≠ some []) :
    Record.from_binary r.write = .ok (r, []) := by
  have h := from_binary_write r [] hwf hkey
  simpa using h

/-- Witness for `c2_round_trip` at a concrete record. -/
theorem c2_round_trip_witness :
    RecordWF ⟨1, 2, some [9], [3, 4]⟩ ∧ (⟨1, 2, some [9], [3, 4]⟩ : Record).key ≠ some [] ∧
      Record.from_binary (Record.write ⟨1, 2, some [9], [3, 4]⟩) =
        .ok (⟨1, 2, some [9], [3, 4]⟩, []) :=
  ⟨by decide, by decide, c2_round_trip ⟨1, 2, some [9], [3, 4]⟩ (by decide) (by decide)⟩

/-! ## Claim C9: empty-`Some` keys collapse to absent keys -/

/-- **C9.**  Encoding a record whose key is `Some []` produces exactly the
bytes of the same record with the key absent (both write `key_len = 0` and no
key bytes), and a successfully decoded record's key is never `Some []`: it is
either `none` or a non-empty byte string. -/
theorem c9_empty_key_collapse :
    (∀ off ts v, (⟨off, ts, some [], v⟩ : Record).write =
      (⟨off, ts, none, v⟩ : Record).write) ∧
    (∀ bs r rest, Record.from_binary bs = .ok (r, rest) → r.key ≠ some []) := by
  constructor
  · intro off ts v
    simp [Record.write]
  · intro bs r rest h
    exact from_binary_key_not_empty h

/-- Witness for `c9_empty_key_collapse` at a concrete byte source. -/
theorem c9_empty_key_collapse_witness :
    Record.from_binary ((⟨0, 0, some [1], [2]⟩ : Record).write) =
      .ok (⟨0, 0, some [1], [2]⟩, []) ∧
    (⟨0, 0, some [1], [2]⟩ : Record).key ≠ some [] :=
  ⟨by rfl,
   c9_empty_key_collapse.2 ((⟨0, 0, some [1], [2]⟩ : Record).write)
     ⟨0, 0, some [1], [2]⟩ [] (by rfl)⟩

/-! ## Claim C10: a FullSegment failure leaves the segment unchanged -/

/-- **C10.**  Whenever `Segment::append_record` fails with `FullSegment`, the
segment state is completely unchanged — the capacity check precedes every
write, so `log.size`, `log.current_offset`, `prev_offset` and the index are
all untouched. -/
theorem c10_full_segment_unchanged (s : Segment) (key : Option (List Nat))
    (value : List Nat) (ts : Nat)
    (h : (s.append_record key value ts).1 = .error .FullSegment) :
    (s.append_record key value ts).2 = s := by
  by_cases hc : s.log.can_fit (Record.binary_size ⟨s.latest_offset, ts, key, value⟩)
  · exfalso
    unfold Segment.append_record at h
    rw [if_neg (not_not_intro hc)] at h
    dsimp only at h
    split at h <;> simp_all
  · unfold Segment.append_record
    rw [if_pos hc]

/-! ## Characterisation of the `binary_search_by` loop -/

/-- On inputs where the predicate `key ≤ v` holds on a downward-closed set of
indices, the `binary_search_by` loop lands exactly at the boundary: every
index below the result satisfies the predicate and none at or above it does. -/
theorem binSearchGo_spec (keys : List Nat) (v : Nat) :
    ∀ (fuel left right : Nat), right - left ≤ fuel → left ≤ right →
    right ≤ keys.length →
    (∀ i, i < left → keys.getD i 0 ≤ v) →
    (∀ i, right ≤ i → i < keys.length → ¬ keys.getD i 0 ≤ v) →
    (∀ i j, i ≤ j → j < keys.length → keys.getD j 0 ≤ v → keys.getD i 0 ≤ v) →
    left ≤ binSearchGo keys v fuel left right ∧
    binSearchGo keys v fuel left right ≤ right ∧
    (∀ i, i < binSearchGo keys v fuel left right → keys.getD i 0 ≤ v) ∧
    (∀ i, binSearchGo keys v fuel left right ≤ i → i < keys.length →
      ¬ keys.getD i 0 ≤ v) := by
  intro fuel
  induction fuel with
  | zero =>
    intro left right hf hlr hrl hL hR _hmono
    have hEq : left = right := by omega
    rw [binSearchGo]
    subst hEq
    exact ⟨le_refl _, le_refl _, hL, hR⟩
  | succ f ih =>
    intro left right hf hlr hrl hL hR hmono
    by_cases hlt : left < right
    · rw [binSearchGo]
      dsimp only
      rw [if_pos hlt]
      have hmidlt : left + (right - left) / 2 < right := by omega
      have hmidlen : left + (right - left) / 2 < keys.length := by omega
      by_cases hk : keys.getD (left + (right - left) / 2) 0 ≤ v
      · rw [if_pos hk]
        refine (ih (left + (right - left) / 2 + 1) right (by omega) (by omega)
          hrl ?_ hR hmono).imp (by omega) (fun h => h)
        intro i hi
        by_cases hil : i < left
        · exact hL i hil
        · exact hmono i (left + (right - left) / 2) (by omega) hmidlen hk
      · rw [if_neg hk]
        refine (ih left (left + (right - left) / 2) (by omega) (by omega)
          (by omega) hL ?_ hmono).imp (fun h => h) (fun h => ⟨by omega, h.2⟩)
        intro i hi hilen hcon
        exact hk (hmono (left + (right - left) / 2) i hi hilen hcon)
    · rw [binSearchGo]
      dsimp only
      rw [if_neg hlt]
      have hEq : left = right := by omega
      subst hEq
      exact ⟨le_refl _, le_refl _, hL, hR⟩

/-- On inputs where the predicate `key ≤ v` holds on a downward-closed set of
indices, the `binary_search_by` loop lands exactly at the boundary: every
index below the result satisfies the predicate and none at or above it does. -/
theorem binSearchLoop_spec (keys : List Nat) (v : Nat) (left right : Nat)
    (hlr : left ≤ right) (hrl : right ≤ keys.length)
    (hL : ∀ i, i < left → keys.getD i 0 ≤ v)
    (hR : ∀ i, right ≤ i → i < keys.length → ¬ keys.getD i 0 ≤ v)
    (hmono : ∀ i j, i ≤ j → j < keys.length → keys.getD j 0 ≤ v →
      keys.getD i 0 ≤ v) :
    left ≤ binSearchLoop keys v left right ∧
    binSearchLoop keys v left right ≤ right ∧
    (∀ i, i < binSearchLoop keys v left right → keys.getD i 0 ≤ v) ∧
    (∀ i, binSearchLoop keys v left right ≤ i → i < keys.length →
      ¬ keys.getD i 0 ≤ v) :=
  binSearchGo_spec keys v (right - left) left right (le_refl _) hlr hrl hL hR hmono

theorem startingOffset_mod (ix : Index) (rel : Nat) :
    ix.startingOffset rel % ENTRY_SIZE = 0 := by
  unfold Index.startingOffset ENTRY_SIZE
  dsimp only
  split
  · next h => simp [h]
  · omega

/-! ## Claim C8: `find_offset` before the first sample / on an empty index -/

/-- **C8 counterexample.**  On a non-empty index whose first examined sample
has `relative_offset` 100 (interval 16), a lookup with relative offset 30
(strictly below the first sample) returns `begin = (84, 0)` — that is,
`(first.relative_offset − offset_interval, 0)` — not `(0, 0)` as claimed. -/
theorem c8_counterexample :
    Index.find_offset ⟨[⟨100, 50⟩], 8, 0, 16⟩ 30 =
      .ok (.Around ⟨84, 0⟩ ⟨100, 50⟩) ∧ (⟨84, 0⟩ : Position) ≠ ⟨0, 0⟩ :=
  ⟨by rfl, by decide⟩

/-- **C8 (amended).**  On an empty index `find_offset` returns
`begin = end = (0, 0)`.  On a non-empty index (entries in strictly increasing
`relative_offset`, as appended) with `base_offset ≤ offset` (so the source's
`offset as u64 - base_offset` does not underflow) whose examined window starts
with a sample `p0` with `offset_interval ≤ p0.relative_offset` (so the
source's `u32` subtraction `p0.relative_offset - offset_interval` does not
underflow) and `rel < p0.relative_offset`, `find_offset` returns
`begin = (p0.relative_offset − offset_interval, 0)` — which, given that
bound, equals `(0, 0)` exactly when that first sample sits at
`relative_offset = offset_interval` — and `end = p0`. -/
theorem c8_find_offset_before_first_sample (ix : Index) (offset : Nat) :
    (ix.size = 0 → ix.find_offset offset = .ok (.Around ⟨0, 0⟩ ⟨0, 0⟩)) ∧
    (∀ p0 tl, ix.size ≠ 0 →
      ix.base_offset ≤ offset →
      List.Pairwise (fun a b => a.relative_offset < b.relative_offset) ix.entries →
      ix.window (ix.relOf offset) = p0 :: tl →
      ix.offset_interval ≤ p0.relative_offset →
      ix.relOf offset < p0.relative_offset →
      ix.find_offset offset =
        .ok (.Around ⟨p0.relative_offset - ix.offset_interval, 0⟩ p0)) := by
  constructor
  · intro h
    unfold Index.find_offset
    rw [if_pos h]
  · intro p0 tl hsz _hbase hpw hwin _hint hrel
    have hwpw : List.Pairwise (fun a b => a.relative_offset < b.relative_offset)
        (p0 :: tl) := by
      rw [← hwin]
      exact List.Pairwise.sublist (List.drop_sublist _ _) hpw
    have hall : ∀ i, i < (p0 :: tl).length →
        ix.relOf offset < ((p0 :: tl).map Position.relative_offset).getD i 0 := by
      intro i hi
      rw [List.getD_eq_getElem _ _ (by simpa using hi), List.getElem_map]
      rcases List.pairwise_cons.mp hwpw with ⟨hhead, -⟩
      match i, hi with
      | 0, _ => exact hrel
      | j + 1, hj =>
        have hmem : (p0 :: tl)[j + 1] ∈ tl := by
          have hjtl : j < tl.length := by simpa using hj
          simp
        exact lt_trans hrel (hhead _ hmem)
    have hspec := binSearchLoop_spec ((p0 :: tl).map Position.relative_offset)
      (ix.relOf offset) 0 (p0 :: tl).length
      (by omega) (by simp)
      (by intro i hi; omega)
      (by intro i hi hilen; simp only [List.length_map] at hilen; omega)
      (by
        intro i j hij hjlen hle
        exact absurd hle (not_le_of_lt (hall j (by simpa using hjlen))))
    obtain ⟨-, -, hbelow, -⟩ := hspec
    have hn0 : binSearchLoop ((p0 :: tl).map Position.relative_offset)
        (ix.relOf offset) 0 (p0 :: tl).length = 0 := by
      by_contra hcon
      have h1 := hbelow 0 (by omega)
      have h2 := hall 0 (by simp)
      omega
    have hdrop : ix.startingOffset (ix.relOf offset) / ENTRY_SIZE <
        ix.entries.length := by
      by_contra hcon
      rw [Index.window, List.drop_eq_nil_of_le (by omega)] at hwin
      exact absurd hwin (by simp)
    have hmod := startingOffset_mod ix (ix.relOf offset)
    have hguard : ¬ ENTRY_SIZE * ix.entries.length <
        ix.startingOffset (ix.relOf offset) := by
      have : ix.startingOffset (ix.relOf offset) =
          ENTRY_SIZE * (ix.startingOffset (ix.relOf offset) / ENTRY_SIZE) := by
        unfold ENTRY_SIZE at *
        omega
      unfold ENTRY_SIZE at *
      omega
    unfold Index.find_offset
    rw [if_neg hsz]
    dsimp only
    rw [if_neg hguard, hwin, hn0]
    rfl

/-- Witness for `c8_find_offset_before_first_sample` at a concrete index whose
first sample is at `relative_offset = offset_interval` (so `begin = (0, 0)`). -/
theorem c8_find_offset_before_first_sample_witness :
    (⟨[⟨16, 100⟩], 8, 0, 16⟩ : Index).size ≠ 0 ∧
    Index.window ⟨[⟨16, 100⟩], 8, 0, 16⟩
      (Index.relOf ⟨[⟨16, 100⟩], 8, 0, 16⟩ 3) = [⟨16, 100⟩] ∧
    Index.find_offset ⟨[⟨16, 100⟩], 8, 0, 16⟩ 3 =
      .ok (.Around ⟨0, 0⟩ ⟨16, 100⟩) := by
  refine ⟨by decide, by decide, ?_⟩
  have h := (c8_find_offset_before_first_sample ⟨[⟨16, 100⟩], 8, 0, 16⟩ 3).2
    ⟨16, 100⟩ [] (by decide) (by decide) (by decide) (by decide) (by decide)
    (by decide)
  simpa using h

/-- Witness for `c10_full_segment_unchanged`: a zero-capacity segment. -/
theorem c10_full_segment_unchanged_witness :
    ((⟨⟨[], 0, 0, 0, 0⟩, Index.new 0 16, 0, 0, 16, true⟩ : Segment).append_record
        none [1] 0).1 = .error .FullSegment ∧
    ((⟨⟨[], 0, 0, 0, 0⟩, Index.new 0 16, 0, 0, 16, true⟩ : Segment).append_record
        none [1] 0).2 = ⟨⟨[], 0, 0, 0, 0⟩, Index.new 0 16, 0, 0, 16, true⟩ :=
  ⟨by decide,
   c10_full_segment_unchanged ⟨⟨[], 0, 0, 0, 0⟩, Index.new 0 16, 0, 0, 16, true⟩
     none [1] 0 (by decide)⟩


/-! ## Helper lemmas about segment and partition appends -/

theorem read_at_zero (l : Log) : l.read_at 0 0 = .ok [] := by
  unfold Log.read_at
  rw [if_pos ⟨le_refl 0, Nat.zero_le _⟩]
  simp

/-- A segment append on a segment that cannot fit the record fails with
`FullSegment` and changes nothing. -/
theorem seg_append_full {s : Segment} {key : Option (List Nat)}
    {value : List Nat} {ts : Nat}
    (h : ¬ s.log.can_fit (Record.binary_size ⟨s.latest_offset, ts, key, value⟩)) :
    s.append_record key value ts = (.error .FullSegment, s) := by
  unfold Segment.append_record
  rw [if_pos h]

/-- A segment append on a segment that can fit the record succeeds; the
resulting state is the log append plus, when the sampling condition fires,
the index append and the `prev_offset` update. -/
theorem seg_append_fits {s : Segment} {key : Option (List Nat)}
    {value : List Nat} {ts : Nat}
    (h : s.log.can_fit (Record.binary_size ⟨s.latest_offset, ts, key, value⟩)) :
    s.append_record key value ts =
      if s.offset_interval ≤ s.log.current_offset - s.prev_offset then
        (.ok Unit.unit,
          { s with
              log := (s.log.append_record
                (Record.write ⟨s.latest_offset, ts, key, value⟩)).2,
              index := s.index.append_position (s.log.current_offset % u32Mod)
                (s.log.size % u32Mod),
              prev_offset := s.log.current_offset })
      else
        (.ok Unit.unit,
          { s with
              log := (s.log.append_record
                (Record.write ⟨s.latest_offset, ts, key, value⟩)).2 }) := by
  unfold Segment.append_record
  rw [if_neg (not_not_intro h)]
  rfl


/-! ## Claim C5 / C7 counterexamples: a record larger than a whole segment -/

/-- **C5 counterexample.**  A record whose `binary_size` (4097) exceeds the
remaining capacity triggers a roll, but the append does *not* succeed on the
new segment: the record exceeds `log_max_size` outright and the retry's
`FullSegment` hits the `panic!()` arm. -/
theorem c5_counterexample :
    ¬ Partition.initEmpty.activeSegment.log.can_fit
        (Record.binary_size ⟨Partition.initEmpty.activeSegment.latest_offset, 0,
          none, List.replicate 4065 0⟩) ∧
    (Partition.initEmpty.append_record none (List.replicate 4065 0) 0).1 =
      .error .panicked := by
  have hbs : ∀ off : Nat,
      Record.binary_size ⟨off, 0, none, List.replicate 4065 0⟩ = 4097 := by
    intro off
    unfold Record.binary_size
    dsimp only
    rw [List.length_replicate]
    rfl
  have h1 : ¬ Partition.initEmpty.activeSegment.log.can_fit
      (Record.binary_size ⟨Partition.initEmpty.activeSegment.latest_offset, 0,
        none, List.replicate 4065 0⟩) := by
    unfold Log.can_fit
    rw [hbs]
    rw [show Partition.initEmpty.activeSegment.log.max_size = 4096 from rfl]
    rw [show Partition.initEmpty.activeSegment.log.size = 0 from rfl]
    omega
  refine ⟨h1, ?_⟩
  unfold Partition.append_record
  rw [seg_append_full h1]
  dsimp only
  have h2 : ¬ Partition.initEmpty.new_active_segment.activeSegment.log.can_fit
      (Record.binary_size
        ⟨Partition.initEmpty.new_active_segment.activeSegment.latest_offset, 0,
          none, List.replicate 4065 0⟩) := by
    unfold Log.can_fit
    rw [hbs]
    rw [show Partition.initEmpty.new_active_segment.activeSegment.log.max_size =
      4096 from rfl]
    rw [show Partition.initEmpty.new_active_segment.activeSegment.log.size =
      0 from rfl]
    omega
  rw [seg_append_full h2]

/-- **C7 counterexample.**  The first attempt on the active segment fails
with `FullSegment` (record of `binary_size` 5033 on a 4096-byte segment), and
`Partition::append_record` ends in the `panic!()` arm instead of handling the
error: the `FullSegment` raised during the retry on the fresh segment is not
rolled over again nor returned — the process panics. -/
theorem c7_counterexample :
    (Partition.initEmpty.activeSegment.append_record (some [1])
        (List.replicate 5000 7) 9).1 = .error .FullSegment ∧
    (Partition.initEmpty.append_record (some [1]) (List.replicate 5000 7) 9).1 =
      .error .panicked := by
  have hbs : ∀ off : Nat,
      Record.binary_size ⟨off, 9, some [1], List.replicate 5000 7⟩ = 5033 := by
    intro off
    unfold Record.binary_size
    dsimp only
    rw [List.length_replicate]
    rfl
  have h1 : ¬ Partition.initEmpty.activeSegment.log.can_fit
      (Record.binary_size ⟨Partition.initEmpty.activeSegment.latest_offset, 9,
        some [1], List.replicate 5000 7⟩) := by
    unfold Log.can_fit
    rw [hbs]
    rw [show Partition.initEmpty.activeSegment.log.max_size = 4096 from rfl]
    rw [show Partition.initEmpty.activeSegment.log.size = 0 from rfl]
    omega
  have h2 : ¬ Partition.initEmpty.new_active_segment.activeSegment.log.can_fit
      (Record.binary_size
        ⟨Partition.initEmpty.new_active_segment.activeSegment.latest_offset, 9,
          some [1], List.replicate 5000 7⟩) := by
    unfold Log.can_fit
    rw [hbs]
    rw [show Partition.initEmpty.new_active_segment.activeSegment.log.max_size =
      4096 from rfl]
    rw [show Partition.initEmpty.new_active_segment.activeSegment.log.size =
      0 from rfl]
    omega
  constructor
  · rw [seg_append_full h1]
  · unfold Partition.append_record
    rw [seg_append_full h1]
    dsimp only
    rw [seg_append_full h2]


/-! ## Claim C7 (amended): error propagation of `Partition::append_record` -/

/-- **C7 (amended).**  `Partition::append_record` is exactly the source's
`match`, captured by `appendErrorDispatch` applied to the first attempt on
the active segment and the retry on the freshly rolled segment; for that
dispatch: a `FullSegment` from the first attempt followed by a successful
retry yields success (the error never surfaces); if the retry fails — with
*any* error, `Io` included — the call panics instead of returning the error;
an `Io` error from the first attempt is returned to the caller; and a panic
happens only in the failed-retry case. -/
theorem c7_error_dispatch :
    (∀ (p : Partition) (key : Option (List Nat)) (value : List Nat) (ts : Nat),
      (p.append_record key value ts).1 =
        appendErrorDispatch (p.activeSegment.append_record key value ts).1
          (p.new_active_segment.activeSegment.append_record key value ts).1) ∧
    (∀ first retry : Except SegmentError Unit,
      (first = .error .FullSegment → retry = .ok Unit.unit →
        appendErrorDispatch first retry = .ok Unit.unit) ∧
      (first = .error .FullSegment → (∀ u, retry ≠ .ok u) →
        appendErrorDispatch first retry = .error .panicked) ∧
      (∀ e, first = .error (.Io e) →
        appendErrorDispatch first retry = .error (.io e)) ∧
      (appendErrorDispatch first retry = .error .panicked →
        first = .error .FullSegment ∧ ∀ u, retry ≠ .ok u)) := by
  constructor
  · intro p key value ts
    unfold Partition.append_record appendErrorDispatch
    dsimp only
    rcases hfirst : (p.activeSegment.append_record key value ts).1 with se | u
    · cases se with
      | Io e => rfl
      | FullSegment =>
        dsimp only
        rcases hretry :
            (p.new_active_segment.activeSegment.append_record key value ts).1
          with e2 | u
        · rfl
        · rfl
    · rfl
  · intro first retry
    refine ⟨?_, ?_, ?_, ?_⟩
    · intro h1 h2
      subst h1
      subst h2
      rfl
    · intro h1 h2
      subst h1
      cases retry with
      | ok u => exact absurd rfl (h2 u)
      | error e => rfl
    · intro e h1
      subst h1
      rfl
    · intro hp
      cases first with
      | ok u => exact absurd hp (by simp [appendErrorDispatch])
      | error se =>
        cases se with
        | Io e => exact absurd hp (by simp [appendErrorDispatch])
        | FullSegment =>
          refine ⟨rfl, ?_⟩
          intro u hcon
          subst hcon
          exact absurd hp (by simp [appendErrorDispatch])

/-- Witness for `c7_error_dispatch`: the dispatch equation on a concrete
partition, the roll-and-retry success case, the failed-retry panic, and the
returned `Io` error, all at concrete arguments. -/
theorem c7_error_dispatch_witness :
    ((Partition.initEmpty.append_record none [3] 0).1 =
      appendErrorDispatch
        (Partition.initEmpty.activeSegment.append_record none [3] 0).1
        (Partition.initEmpty.new_active_segment.activeSegment.append_record
          none [3] 0).1) ∧
    appendErrorDispatch (.error .FullSegment) (.ok Unit.unit) = .ok Unit.unit ∧
    appendErrorDispatch (.error .FullSegment) (.error .FullSegment) =
      .error .panicked ∧
    appendErrorDispatch (.error (.Io 3)) (.ok Unit.unit) = .error (.io 3) :=
  ⟨c7_error_dispatch.1 Partition.initEmpty none [3] 0,
   (c7_error_dispatch.2 (.error .FullSegment) (.ok Unit.unit)).1 rfl rfl,
   (c7_error_dispatch.2 (.error .FullSegment) (.error .FullSegment)).2.1 rfl
     (fun u => by simp),
   (c7_error_dispatch.2 (.error (.Io 3)) (.ok Unit.unit)).2.2.1 3 rfl⟩


/-! ## Claims C1 and C3: the empty-index read bug -/

/-- **C1 (code bug).**  On a fresh partition a single append succeeds (the
record is assigned offset 0, so the next offset to assign is 1), yet
`find_record(0)` fails: the segment's sparse index is still empty, so
`find_offset` returns `begin = end = (0, 0)`, the segment slices the empty
byte range `log[0..0]` and decoding it fails with the decoder's
end-of-input error.  Any lookup into a segment holding at most
`offset_interval` records fails this way, contradicting the claim (and the
spec's own "tiny roundtrip" scenario). -/
theorem c1_find_record_bug :
    (runAppends Partition.initEmpty [⟨some [107], [1, 2], 5⟩]).isOk = true ∧
    tinyRunC1.activeSegment.latest_offset = 1 ∧
    tinyRunC1.find_record 0 = .error (.io 0) := by
  refine ⟨rfl, rfl, ?_⟩
  unfold Partition.find_record
  rw [if_pos (show (0 : Nat) = tinyRunC1.activeSegment.base_offset from rfl)]
  unfold Segment.read_at
  rw [show tinyRunC1.activeSegment.index.find_offset (0 % u32Mod) =
    .ok (.Around ⟨0, 0⟩ ⟨0, 0⟩) from rfl]
  dsimp only
  rw [read_at_zero]
  rfl

/-- **C3 (code bug).**  One append, a `flush`, and a fresh `Partition::init`
over the same directory contents: `find_record(0)` fails with a decode error
instead of returning the record, for the same reason as `c1_find_record_bug`
— the reloaded index file is empty, so the read slices `log[0..0]`. -/
theorem c3_durability_bug :
    (runAppends Partition.initEmpty [⟨none, [0, 0, 1, 0], 7⟩]).isOk = true ∧
    ((tinyRunC3.flush).1 = .ok Unit.unit) ∧
    tinyReloadC3.find_record 0 = .error (.io 0) := by
  refine ⟨rfl, rfl, ?_⟩
  unfold Partition.find_record
  rw [if_pos (show (0 : Nat) = tinyReloadC3.activeSegment.base_offset from rfl)]
  unfold Segment.read_at
  rw [show tinyReloadC3.activeSegment.index.find_offset (0 % u32Mod) =
    .ok (.Around ⟨0, 0⟩ ⟨0, 0⟩) from rfl]
  dsimp only
  rw [read_at_zero]
  rfl


/-! ## Claim C6: sparse index sampling -/

/-- **C6.**  For every successful segment append (in the ranges the Rust
types impose), an entry is appended to the sparse index exactly when
`last_offset - prev_offset ≥ offset_interval` holds for the just-appended
record's offset `last_offset` (the log's `current_offset` before its
increment — "current_offset after that append" in the claim's words): in
that case the new entry is `(last_offset - base_offset, log position of the
written record)` and `prev_offset` becomes the sampled offset; otherwise
index and `prev_offset` are unchanged.  Concretely, 17 appends of
`value = [0,0,1,0]`, key absent, on a fresh partition leave the segment's
index at exactly one 8-byte entry `(16, 16 × 36)`. -/
theorem c6_sparse_index_sampling :
    (∀ (s : Segment) (key : Option (List Nat)) (value : List Nat) (ts : Nat),
      (s.append_record key value ts).1 = .ok Unit.unit →
      s.prev_offset ≤ s.latest_offset →
      s.base_offset ≤ s.latest_offset →
      s.latest_offset < u32Mod →
      s.log.size < u32Mod →
      s.index.base_offset = s.base_offset →
      (s.offset_interval ≤ s.latest_offset - s.prev_offset →
        (s.append_record key value ts).2.index.entries =
          s.index.entries ++ [⟨s.latest_offset - s.base_offset, s.log.size⟩] ∧
        (s.append_record key value ts).2.index.size =
          s.index.size + ENTRY_SIZE ∧
        (s.append_record key value ts).2.prev_offset = s.latest_offset) ∧
      (s.latest_offset - s.prev_offset < s.offset_interval →
        (s.append_record key value ts).2.index = s.index ∧
        (s.append_record key value ts).2.prev_offset = s.prev_offset)) ∧
    ((seventeenRun.segments.getD 0 default).index.entries = [⟨16, 16 * 36⟩] ∧
      (seventeenRun.segments.getD 0 default).index.size = ENTRY_SIZE) := by
  constructor
  · intro s key value ts hok hprev hbase hlat hsz hixb
    have hcf : s.log.can_fit
        (Record.binary_size ⟨s.latest_offset, ts, key, value⟩) := by
      by_contra hc
      rw [seg_append_full hc] at hok
      simp at hok
    have hlatdef : s.latest_offset = s.log.current_offset := rfl
    rw [seg_append_fits hcf]
    constructor
    · intro hcond
      rw [if_pos (show s.offset_interval ≤ s.log.current_offset - s.prev_offset
        from hlatdef ▸ hcond)]
      refine ⟨?_, rfl, rfl⟩
      unfold Index.append_position
      dsimp only
      have e1 : s.log.current_offset % u32Mod = s.latest_offset := by
        rw [← hlatdef]
        exact Nat.mod_eq_of_lt hlat
      have e2 : s.log.size % u32Mod = s.log.size := Nat.mod_eq_of_lt hsz
      rw [e1, e2, hixb]
      have e3 : (s.latest_offset - s.base_offset) % u32Mod =
          s.latest_offset - s.base_offset :=
        Nat.mod_eq_of_lt (by omega)
      rw [e3]
    · intro hcond
      rw [if_neg (show ¬ s.offset_interval ≤ s.log.current_offset - s.prev_offset
        from by rw [← hlatdef]; omega)]
      exact ⟨rfl, rfl⟩
  · exact ⟨rfl, rfl⟩

/-- Witness for the general part of `c6_sparse_index_sampling`: a segment at
offset 16 with an untouched index; the 16th append samples `(16, 576)`. -/
theorem c6_sparse_index_sampling_witness :
    ((⟨⟨[], 4096, 576, 0, 16⟩, ⟨[], 0, 0, 16⟩, 0, 0, 16, true⟩ :
        Segment).append_record none [0, 0, 1, 0] 0).1 = .ok Unit.unit ∧
    ((⟨⟨[], 4096, 576, 0, 16⟩, ⟨[], 0, 0, 16⟩, 0, 0, 16, true⟩ :
        Segment).append_record none [0, 0, 1, 0] 0).2.index.entries =
      [⟨16, 576⟩] :=
  ⟨by decide,
   ((c6_sparse_index_sampling.1
        ⟨⟨[], 4096, 576, 0, 16⟩, ⟨[], 0, 0, 16⟩, 0, 0, 16, true⟩
        none [0, 0, 1, 0] 0 (by decide) (by decide) (by decide) (by decide)
        (by decide) (by decide)).1 (by decide)).1⟩


/-! ## List bookkeeping lemmas -/

theorem getD_set_ne {α : Type} {l : List α} {i j : Nat} (h : i ≠ j) (a d : α) :
    (l.set i a).getD j d = l.getD j d := by
  simp [List.getD, List.getElem?_set_ne h]

theorem getD_set_self {α : Type} {l : List α} {i : Nat} (h : i < l.length)
    (a d : α) : (l.set i a).getD i d = a := by
  rw [List.getD_eq_getElem _ _ (by simpa), List.getElem_set_self]

theorem set_getD_id {α : Type} {l : List α} {n : Nat} (h : n < l.length)
    (d : α) : l.set n (l.getD n d) = l := by
  apply List.ext_getElem
  · simp
  · intro i h1 h2
    by_cases hin : n = i
    · subst hin
      rw [List.getElem_set_self, List.getD_eq_getElem _ _ h]
    · rw [List.getElem_set_ne hin]

theorem set_append_last {α : Type} (a : List α) (x y : α) :
    (a ++ [x]).set a.length y = a ++ [y] := by
  induction a with
  | nil => rfl
  | cons h t ih => simp [List.set, ih]

theorem sum_set_add {l : List Nat} {i : Nat} (h : i < l.length) (a : Nat) :
    (l.set i a).sum + l.getD i 0 = l.sum + a := by
  induction l generalizing i with
  | nil => simp at h
  | cons x xs ih =>
    cases i with
    | zero =>
      simp only [List.set, List.sum_cons, List.getD_cons_zero]
      omega
    | succ n =>
      simp only [List.set, List.sum_cons, List.getD_cons_succ]
      have := ih (by simpa using h)
      omega

theorem take_set_of_le {α : Type} {l : List α} {i m : Nat} (h : i ≤ m) (a : α) :
    (l.set m a).take i = l.take i := by
  apply List.ext_getElem
  · simp
  · intro j h1 h2
    have hj : j < i := by
      have := h1
      simp only [List.length_take] at this
      omega
    rw [List.getElem_take, List.getElem_take]
    rw [List.getElem_set_ne (show m ≠ j by omega)]

theorem take_succ_getD {l : List Nat} {i : Nat} (h : i < l.length) :
    l.take (i + 1) = l.take i ++ [l.getD i 0] := by
  rw [List.getD_eq_getElem _ _ h]
  rw [List.take_succ]
  simp [List.getElem?_eq_getElem h]

/-! ## Arithmetic of `baseAt` -/

theorem baseAt_zero (counts : List Nat) : baseAt counts 0 = 0 := rfl

theorem baseAt_succ {counts : List Nat} {i : Nat} (h : i < counts.length) :
    baseAt counts (i + 1) = baseAt counts i + counts.getD i 0 := by
  unfold baseAt
  rw [take_succ_getD h]
  simp

theorem baseAt_le_succ (counts : List Nat) (i : Nat) :
    baseAt counts i ≤ baseAt counts (i + 1) := by
  by_cases h : i < counts.length
  · rw [baseAt_succ h]
    omega
  · unfold baseAt
    rw [List.take_of_length_le (by omega), List.take_of_length_le (by omega)]

theorem baseAt_mono (counts : List Nat) {i j : Nat} (h : i ≤ j) :
    baseAt counts i ≤ baseAt counts j := by
  induction j with
  | zero =>
    have : i = 0 := by omega
    simp [this]
  | succ n ih =>
    by_cases hin : i = n + 1
    · simp [hin]
    · exact le_trans (ih (by omega)) (baseAt_le_succ counts n)

theorem baseAt_set_of_le {counts : List Nat} {i m : Nat} (h : i ≤ m) (a : Nat) :
    baseAt (counts.set m a) i = baseAt counts i := by
  unfold baseAt
  rw [take_set_of_le h]

theorem baseAt_append_of_le {counts : List Nat} {i : Nat}
    (h : i ≤ counts.length) (x : Nat) :
    baseAt (counts ++ [x]) i = baseAt counts i := by
  unfold baseAt
  rw [List.take_append_of_le_length h]

theorem baseAt_length (counts : List Nat) :
    baseAt counts counts.length = counts.sum := by
  unfold baseAt
  rw [List.take_length]

/-- `Record::write` produces exactly `binary_size` bytes. -/
theorem write_length (r : Record) : r.write.length = r.binary_size := by
  obtain ⟨off, ts, key, val⟩ := r
  unfold Record.write Record.binary_size
  cases key <;> simp [toBytesBE_length] <;> omega


/-! ## State bookkeeping of successful appends -/

/-- The log-level effect of a successful (fitting) segment append. -/
theorem seg_append_ok_log {s : Segment} {key : Option (List Nat)}
    {value : List Nat} {ts : Nat}
    (h : s.log.can_fit (Record.binary_size ⟨s.latest_offset, ts, key, value⟩)) :
    (s.append_record key value ts).2.base_offset = s.base_offset ∧
    (s.append_record key value ts).2.log.base_offset = s.log.base_offset ∧
    (s.append_record key value ts).2.log.current_offset =
      s.log.current_offset + 1 ∧
    (s.append_record key value ts).2.log.max_size = s.log.max_size ∧
    (s.append_record key value ts).2.log.size =
      s.log.size + Record.binary_size ⟨s.latest_offset, ts, key, value⟩ := by
  rw [seg_append_fits h]
  have hw := write_length ⟨s.latest_offset, ts, key, value⟩
  split <;>
    exact ⟨rfl, rfl, rfl, rfl, by
      unfold Log.append_record
      dsimp only
      rw [hw]⟩

/-- A successful (fitting) segment append succeeds. -/
theorem seg_append_ok_fst {s : Segment} {key : Option (List Nat)}
    {value : List Nat} {ts : Nat}
    (h : s.log.can_fit (Record.binary_size ⟨s.latest_offset, ts, key, value⟩)) :
    (s.append_record key value ts).1 = .ok Unit.unit := by
  rw [seg_append_fits h]
  split <;> rfl

/-- A segment append that returned `Ok` had a fitting record. -/
theorem seg_append_ok_can_fit {s : Segment} {key : Option (List Nat)}
    {value : List Nat} {ts : Nat}
    (h : (s.append_record key value ts).1 = .ok Unit.unit) :
    s.log.can_fit (Record.binary_size ⟨s.latest_offset, ts, key, value⟩) := by
  by_contra hc
  rw [seg_append_full hc] at h
  simp at h

/-- The full effect of `Partition::append_record` when the active segment is
full but the record fits an empty segment: the old active segment is sealed
in place, a fresh segment based at the old `latest_offset` is pushed, the
retried append lands there, and the call succeeds. -/
theorem roll_append {p : Partition} {key : Option (List Nat)}
    {value : List Nat} {ts : Nat}
    (hidx : p.active_segment_index = p.segments.length - 1)
    (hne : p.segments ≠ [])
    (hfull : ¬ p.activeSegment.log.can_fit
      (Record.binary_size ⟨p.activeSegment.latest_offset, ts, key, value⟩))
    (hfit : Record.binary_size ⟨p.activeSegment.latest_offset, ts, key, value⟩ ≤
      LOG_MAX_SIZE) :
    (p.append_record key value ts).1 = .ok Unit.unit ∧
    (p.append_record key value ts).2.segments =
      (p.segments.set (p.segments.length - 1) p.activeSegment.seal) ++
        [((Segment.new p.activeSegment.latest_offset OFFSET_INTERVAL
            true).append_record key value ts).2] ∧
    (p.append_record key value ts).2.active_segment_index =
      p.segments.length := by
  have hlen : 0 < p.segments.length := List.length_pos.mpr hne
  have hsucc : p.segments.length - 1 + 1 = p.segments.length := by omega
  have hnewfit : (Segment.new p.activeSegment.latest_offset OFFSET_INTERVAL
      true).log.can_fit (Record.binary_size
        ⟨(Segment.new p.activeSegment.latest_offset OFFSET_INTERVAL
            true).latest_offset, ts, key, value⟩) := by
    show LOG_MAX_SIZE - 0 ≥ _
    have heq : Record.binary_size
        ⟨(Segment.new p.activeSegment.latest_offset OFFSET_INTERVAL
          true).latest_offset, ts, key, value⟩ =
        Record.binary_size ⟨p.activeSegment.latest_offset, ts, key, value⟩ := rfl
    rw [heq]
    omega
  have hroll : p.new_active_segment.activeSegment =
      Segment.new p.activeSegment.latest_offset OFFSET_INTERVAL true := by
    unfold Partition.new_active_segment Partition.activeSegment
    dsimp only
    rw [hidx, hsucc]
    rw [List.getD_append_right _ _ _ _ (by simp)]
    simp
  unfold Partition.append_record
  rw [seg_append_full hfull]
  dsimp only
  rw [hroll, seg_append_ok_fst hnewfit]
  dsimp only
  refine ⟨rfl, ?_, ?_⟩
  · show p.new_active_segment.segments.set
        p.new_active_segment.active_segment_index _ = _
    unfold Partition.new_active_segment
    dsimp only
    rw [hidx, hsucc]
    have hl : p.segments.length =
        (p.segments.set (p.segments.length - 1) p.activeSegment.seal).length := by
      simp
    nth_rewrite 2 [hl]
    rw [set_append_last]
  · show p.new_active_segment.active_segment_index = _
    unfold Partition.new_active_segment
    dsimp only
    rw [hidx, hsucc]


/-- The effect of `Partition::append_record` when the active segment fits
the record: replace the active segment in place, keep the index. -/
theorem plain_append {p : Partition} {key : Option (List Nat)}
    {value : List Nat} {ts : Nat}
    (hcf : p.activeSegment.log.can_fit
      (Record.binary_size ⟨p.activeSegment.latest_offset, ts, key, value⟩)) :
    (p.append_record key value ts).1 = .ok Unit.unit ∧
    (p.append_record key value ts).2.segments =
      p.segments.set p.active_segment_index
        (p.activeSegment.append_record key value ts).2 ∧
    (p.append_record key value ts).2.active_segment_index =
      p.active_segment_index := by
  unfold Partition.append_record
  dsimp only
  rw [seg_append_ok_fst hcf]
  exact ⟨rfl, rfl, rfl⟩

/-- Sealing only changes the `active` flag, so it preserves `segSlim`. -/
theorem segSlim_seal {s : Segment} {b cnt : Nat} (h : segSlim s b cnt) :
    segSlim s.seal b cnt := h

/-- One successful partition append preserves the reachability invariant and
appends exactly one record. -/
theorem append_record_slim {p : Partition} {counts : List Nat}
    {key : Option (List Nat)} {value : List Nat} {ts : Nat}
    (h : PartSlim p counts)
    (hok : (p.append_record key value ts).1 = .ok Unit.unit) :
    ∃ counts', PartSlim (p.append_record key value ts).2 counts' ∧
      counts'.sum = counts.sum + 1 := by
  obtain ⟨hne, hlen, hidx, hseg⟩ := h
  have hlenpos : 0 < counts.length := List.length_pos.mpr hne
  have hplen : p.segments ≠ [] := by
    intro hc
    rw [hc] at hlen
    simp at hlen
    omega
  have hplenpos : 0 < p.segments.length := List.length_pos.mpr hplen
  have hmlt : counts.length - 1 < counts.length := by omega
  have hidx2 : p.active_segment_index = p.segments.length - 1 := by
    rw [hidx, hlen]
  have hactive : p.activeSegment = p.segments.getD (counts.length - 1) default := by
    unfold Partition.activeSegment
    rw [hidx]
  have hactiveSlim := hseg (counts.length - 1) hmlt
  rw [← hactive] at hactiveSlim
  obtain ⟨hab, halb, halc, halm, hals⟩ := hactiveSlim
  by_cases hcf : p.activeSegment.log.can_fit
      (Record.binary_size ⟨p.activeSegment.latest_offset, ts, key, value⟩)
  · -- plain append into the active segment
    obtain ⟨-, hsegs, hidx3⟩ := plain_append (p := p) hcf
    obtain ⟨-, -, hcur, hmax, hsize⟩ := seg_append_ok_log (s := p.activeSegment) hcf
    have hbase2 := (seg_append_ok_log (s := p.activeSegment) hcf).1
    have hlogbase := (seg_append_ok_log (s := p.activeSegment) hcf).2.1
    refine ⟨counts.set (counts.length - 1) (counts.getD (counts.length - 1) 0 + 1),
      ⟨?_, ?_, ?_, ?_⟩, ?_⟩
    · intro hc
      have h2 : (counts.set (counts.length - 1)
          (counts.getD (counts.length - 1) 0 + 1)).length = 0 := by
        rw [hc]
        rfl
      rw [List.length_set] at h2
      omega
    · rw [hsegs]
      simp [hlen]
    · rw [hidx3, hidx]
      simp
    · intro i hi
      have hilen : i < counts.length := by simpa using hi
      by_cases him : i = counts.length - 1
      · subst him
        rw [hsegs, hidx2, hlen]
        rw [getD_set_self (by omega) _ _]
        rw [getD_set_self (by omega) _ _]
        rw [baseAt_set_of_le (le_refl _) _]
        refine ⟨?_, ?_, ?_, ?_, ?_⟩
        · rw [hbase2, hab]
        · rw [hlogbase, halb]
        · rw [hcur, halc]
          omega
        · rw [hmax, halm]
        · rw [hsize]
          unfold Log.can_fit at hcf
          rw [halm] at hcf
          omega
      · have him2 : i < counts.length - 1 := by omega
        rw [hsegs, hidx2, hlen]
        rw [getD_set_ne (by omega) _ _]
        rw [getD_set_ne (by omega) _ _]
        rw [baseAt_set_of_le (by omega) _]
        exact hseg i hilen
    · have hs := sum_set_add (l := counts) hmlt
        (counts.getD (counts.length - 1) 0 + 1)
      omega
  · -- the active segment is full: the append rolls a new segment
    have hfit : Record.binary_size
        ⟨p.activeSegment.latest_offset, ts, key, value⟩ ≤ LOG_MAX_SIZE := by
      by_contra hc
      have hnf : ¬ (Segment.new p.activeSegment.latest_offset OFFSET_INTERVAL
          true).log.can_fit (Record.binary_size
            ⟨(Segment.new p.activeSegment.latest_offset OFFSET_INTERVAL
                true).latest_offset, ts, key, value⟩) := by
        show ¬ LOG_MAX_SIZE - 0 ≥ _
        have heq : Record.binary_size
            ⟨(Segment.new p.activeSegment.latest_offset OFFSET_INTERVAL
              true).latest_offset, ts, key, value⟩ =
            Record.binary_size ⟨p.activeSegment.latest_offset, ts, key, value⟩ :=
          rfl
        rw [heq]
        omega
      have hroll : p.new_active_segment.activeSegment =
          Segment.new p.activeSegment.latest_offset OFFSET_INTERVAL true := by
        unfold Partition.new_active_segment Partition.activeSegment
        dsimp only
        rw [hidx2, show p.segments.length - 1 + 1 = p.segments.length by omega]
        rw [List.getD_append_right _ _ _ _ (by simp)]
        simp
      unfold Partition.append_record at hok
      rw [seg_append_full hcf] at hok
      dsimp only at hok
      rw [hroll, seg_append_full hnf] at hok
      simp at hok
    obtain ⟨-, hsegs, hidx3⟩ := roll_append hidx2 hplen hcf hfit
    have hnewfit : (Segment.new p.activeSegment.latest_offset OFFSET_INTERVAL
        true).log.can_fit (Record.binary_size
          ⟨(Segment.new p.activeSegment.latest_offset OFFSET_INTERVAL
              true).latest_offset, ts, key, value⟩) := by
      show LOG_MAX_SIZE - 0 ≥ _
      have heq : Record.binary_size
          ⟨(Segment.new p.activeSegment.latest_offset OFFSET_INTERVAL
            true).latest_offset, ts, key, value⟩ =
          Record.binary_size ⟨p.activeSegment.latest_offset, ts, key, value⟩ :=
        rfl
      rw [heq]
      omega
    obtain ⟨hnb, hnlb, hnlc, hnlm, hnls⟩ :=
      seg_append_ok_log (s := Segment.new p.activeSegment.latest_offset
        OFFSET_INTERVAL true) hnewfit
    have hbseq : Record.binary_size
        ⟨(Segment.new p.activeSegment.latest_offset OFFSET_INTERVAL
          true).latest_offset, ts, key, value⟩ =
        Record.binary_size ⟨p.activeSegment.latest_offset, ts, key, value⟩ := rfl
    have hlatest : p.activeSegment.latest_offset = counts.sum := by
      show p.activeSegment.log.current_offset = counts.sum
      rw [halc, ← baseAt_length]
      rw [show counts.length = counts.length - 1 + 1 by omega]
      rw [baseAt_succ (by omega)]
      simp only [Nat.add_sub_cancel]
    refine ⟨counts ++ [1], ⟨by simp, ?_, ?_, ?_⟩, ?_⟩
    · rw [hsegs]
      simp [hlen]
    · rw [hidx3]
      simp [hlen]
    · intro i hi
      have hilen : i < counts.length + 1 := by simpa using hi
      have hsetlen : (p.segments.set (p.segments.length - 1)
          p.activeSegment.seal).length = p.segments.length := by simp
      by_cases hit : i = counts.length
      · subst hit
        rw [hsegs]
        rw [List.getD_append_right _ _ _ _ (by rw [hsetlen, hlen])]
        rw [hsetlen, hlen]
        simp only [Nat.sub_self, List.getD_cons_zero]
        rw [baseAt_append_of_le (le_refl _) _]
        rw [baseAt_length]
        rw [List.getD_append_right _ _ _ _ (le_refl _)]
        simp only [Nat.sub_self, List.getD_cons_zero]
        refine ⟨?_, ?_, ?_, ?_, ?_⟩
        · rw [hnb, ← hlatest]
          rfl
        · rw [hnlb, ← hlatest]
          rfl
        · rw [hnlc, ← hlatest]
          rfl
        · rw [hnlm]
          rfl
        · rw [hnls, hbseq]
          show 0 + _ ≤ _
          omega
      · have hit2 : i < counts.length := by omega
        rw [hsegs]
        rw [List.getD_append _ _ _ _ (by rw [hsetlen, hlen]; omega)]
        rw [baseAt_append_of_le (by omega) _]
        rw [List.getD_append _ _ _ _ (by omega)]
        by_cases him : i = counts.length - 1
        · subst him
          rw [show p.segments.length - 1 = counts.length - 1 from by rw [hlen]]
          rw [getD_set_self (by omega) _ _]
          exact segSlim_seal ⟨hab, halb, halc, halm, hals⟩
        · rw [getD_set_ne (by omega) _ _]
          exact hseg i hit2
    · rw [List.sum_append]
      simp

/-- The fresh partition satisfies the invariant with one empty segment. -/
theorem partSlim_init : PartSlim Partition.initEmpty [0] := by
  refine ⟨by simp, rfl, rfl, ?_⟩
  intro i hi
  have hi0 : i = 0 := by
    simp at hi
    omega
  subst hi0
  exact ⟨rfl, rfl, rfl, rfl, Nat.zero_le _⟩

/-- Every partition reachable by a successful append run satisfies the
invariant, with total record count the number of appends. -/
theorem runAppends_slim {inputs : List AppendInput} {p : Partition}
    (h : runAppends Partition.initEmpty inputs = .ok p) :
    ∃ counts, PartSlim p counts ∧ counts.sum = inputs.length := by
  suffices haux : ∀ (inputs : List AppendInput) (p0 : Partition)
      (counts0 : List Nat) (p : Partition), PartSlim p0 counts0 →
      runAppends p0 inputs = .ok p →
      ∃ counts, PartSlim p counts ∧ counts.sum = counts0.sum + inputs.length by
    obtain ⟨counts, hs, hsum⟩ := haux inputs Partition.initEmpty [0] p
      partSlim_init h
    exact ⟨counts, hs, by simpa using hsum⟩
  intro inputs
  induction inputs with
  | nil =>
    intro p0 c0 p hslim hrun
    unfold runAppends at hrun
    simp only [Except.ok.injEq] at hrun
    subst hrun
    exact ⟨c0, hslim, by simp⟩
  | cons i is ih =>
    intro p0 c0 p hslim hrun
    unfold runAppends at hrun
    dsimp only at hrun
    cases hstep : (p0.append_record i.key i.value i.ts).1 with
    | ok u =>
      rw [hstep] at hrun
      obtain ⟨c1, hslim1, hsum1⟩ := append_record_slim hslim (by rw [hstep])
      obtain ⟨counts, hs, hsum⟩ := ih _ c1 p hslim1 hrun
      refine ⟨counts, hs, ?_⟩
      rw [hsum, hsum1]
      simp
      omega
    | error e =>
      rw [hstep] at hrun
      simp at hrun


/-! ## Claim C4: unique coverage and routing of `find_record` -/

/-- **C4.**  In every partition reachable by a successful run of appends,
the assigned offsets are `0 .. N-1` (`latest_offset = N`), every offset
`o < N` is covered by exactly one segment (its base offset is `≤ o` and it is
the last segment or the next base offset exceeds `o`), and `find_record o`
dispatches the read to exactly that segment. -/
theorem c4_coverage_and_routing (inputs : List AppendInput) (p : Partition)
    (hok : runAppends Partition.initEmpty inputs = .ok p)
    (o : Nat) (_ho : o < inputs.length) :
    p.activeSegment.latest_offset = inputs.length ∧
    (∃! i, Covers p i o) ∧
    (∀ i, Covers p i o →
      p.find_record o = (p.segments.getD i default).read_at o) := by
  obtain ⟨counts, hslim, hsum⟩ := runAppends_slim hok
  obtain ⟨hne, hlen, hidx, hseg⟩ := hslim
  have hlenpos : 0 < counts.length := List.length_pos.mpr hne
  have hplenpos : 0 < p.segments.length := by omega
  have hidx2 : p.active_segment_index = p.segments.length - 1 := by
    rw [hidx, hlen]
  have hb : ∀ i, i < p.segments.length →
      (p.segments.getD i default).base_offset = baseAt counts i := by
    intro i hi
    exact (hseg i (by omega)).1
  have hkey : ∀ i, i < p.segments.length →
      (p.segments.map Segment.base_offset).getD i 0 =
        (p.segments.getD i default).base_offset := by
    intro i hi
    rw [List.getD_eq_getElem _ _ (by simpa using hi), List.getElem_map,
      List.getD_eq_getElem _ _ hi]
  have hactive : p.activeSegment = p.segments.getD (p.segments.length - 1)
      default := by
    unfold Partition.activeSegment
    rw [hidx2]
  have hlast := (hseg (counts.length - 1) (by omega)).2.2.1
  have hlatest : p.activeSegment.latest_offset = inputs.length := by
    show p.activeSegment.log.current_offset = inputs.length
    rw [hactive, hlen, hlast]
    rw [← hsum, ← baseAt_length]
    rw [show counts.length = counts.length - 1 + 1 by omega]
    rw [baseAt_succ (by omega)]
    simp only [Nat.add_sub_cancel]
  -- the binary search boundary
  set n := binSearchLoop (p.segments.map Segment.base_offset) o 0
    p.segments.length with hn
  have hspec := binSearchLoop_spec (p.segments.map Segment.base_offset) o 0
    p.segments.length (by omega) (by simp)
    (by intro i hi; omega)
    (by intro i hi hlen2; simp only [List.length_map] at hlen2; omega)
    (by
      intro i j hij hjlen hle
      simp only [List.length_map] at hjlen
      rw [hkey j hjlen] at hle
      rw [hkey i (by omega)]
      rw [hb j hjlen] at hle
      rw [hb i (by omega)]
      exact le_trans (baseAt_mono counts hij) hle)
  obtain ⟨-, hnle, hbelow, habove⟩ := hspec
  rw [← hn] at hnle hbelow habove
  have hn1 : 1 ≤ n := by
    by_contra hc
    have h0 := habove 0 (by omega) (by simpa using hplenpos)
    rw [hkey 0 hplenpos, hb 0 hplenpos, baseAt_zero] at h0
    omega
  have hcov : Covers p (n - 1) o := by
    refine ⟨by omega, ?_, ?_⟩
    · have := hbelow (n - 1) (by omega)
      rw [hkey (n - 1) (by omega), hb (n - 1) (by omega)] at this
      rw [hb (n - 1) (by omega)]
      exact this
    · by_cases hnl : n = p.segments.length
      · left
        omega
      · right
        have := habove n (by omega) (by simp; omega)
        rw [hkey n (by omega)] at this
        rw [show n - 1 + 1 = n by omega]
        omega
  have huniq : ∀ j, Covers p j o → j = n - 1 := by
    intro j hj
    obtain ⟨hjlen, hjb, hjnext⟩ := hj
    have hjn : j < n := by
      by_contra hc
      have := habove j (by omega) (by simpa using hjlen)
      rw [hkey j hjlen] at this
      omega
    by_contra hne2
    have hj1 : j + 1 ≤ n - 1 := by omega
    have hj1len : j + 1 < p.segments.length := by omega
    rcases hjnext with hl | hr
    · omega
    · have hmono2 : (p.segments.getD (j + 1) default).base_offset ≤
          (p.segments.getD (n - 1) default).base_offset := by
        rw [hb (j + 1) hj1len, hb (n - 1) (by omega)]
        exact baseAt_mono counts hj1
      have hb1 := hcov.2.1
      omega
  refine ⟨hlatest, ⟨n - 1, hcov, huniq⟩, ?_⟩
  intro i hi
  have hieq := huniq i hi
  subst hieq
  unfold Partition.find_record
  by_cases h1 : o = p.activeSegment.base_offset
  · rw [if_pos h1]
    have hmcov : Covers p (p.segments.length - 1) o := by
      refine ⟨by omega, ?_, by left; omega⟩
      rw [← hactive]
      omega
    have := huniq (p.segments.length - 1) hmcov
    rw [hactive]
    rw [this]
  · rw [if_neg h1]
    have hb0 : ¬ (0 < p.segments.length ∧
        o < (p.segments.getD 0 default).base_offset) := by
      rintro ⟨-, hc⟩
      rw [hb 0 hplenpos, baseAt_zero] at hc
      omega
    rw [if_neg hb0]
    dsimp only
    rw [← hn]
    rw [if_neg (by omega)]


/-- Witness for `c4_coverage_and_routing` at a concrete two-append run. -/
theorem c4_coverage_and_routing_witness :
    (1 : Nat) < 2 ∧
    (twoRun.activeSegment.latest_offset = 2 ∧
      (∃! i, Covers twoRun i 1) ∧
      (∀ i, Covers twoRun i 1 →
        twoRun.find_record 1 = (twoRun.segments.getD i default).read_at 1)) :=
  ⟨by decide,
   c4_coverage_and_routing [⟨none, [1], 0⟩, ⟨some [2], [3], 1⟩] twoRun rfl 1
     (by decide)⟩

/-! ## Claim C5 (amended): capacity bound and segment roll -/

/-- **C5 (amended).**  Every segment of a partition reachable by a
successful run keeps `log.size ≤ log_max_size`; and whenever the next
record's `binary_size` exceeds the active segment's remaining capacity, the
append rolls: *provided the record fits an empty segment*
(`binary_size ≤ log_max_size`), a new active segment whose base offset is the
previous active segment's `latest_offset` is created, the previous segment is
sealed, and the append succeeds on the new segment (whose log then holds
exactly that record's bytes).  For a record with
`binary_size > log_max_size` the retry fails and the call panics
(`c5_counterexample`). -/
theorem c5_capacity_and_roll :
    (∀ (inputs : List AppendInput) (p : Partition),
      runAppends Partition.initEmpty inputs = .ok p →
      ∀ s ∈ p.segments, s.log.size ≤ LOG_MAX_SIZE) ∧
    (∀ (p : Partition) (key : Option (List Nat)) (value : List Nat) (ts : Nat),
      p.active_segment_index = p.segments.length - 1 →
      p.segments ≠ [] →
      ¬ p.activeSegment.log.can_fit
        (Record.binary_size ⟨p.activeSegment.latest_offset, ts, key, value⟩) →
      Record.binary_size ⟨p.activeSegment.latest_offset, ts, key, value⟩ ≤
        LOG_MAX_SIZE →
      (p.append_record key value ts).1 = .ok Unit.unit ∧
      (p.append_record key value ts).2.segments.length =
        p.segments.length + 1 ∧
      ((p.append_record key value ts).2.segments.getD p.segments.length
          default).base_offset = p.activeSegment.latest_offset ∧
      ((p.append_record key value ts).2.segments.getD (p.segments.length - 1)
          default).active = false ∧
      ((p.append_record key value ts).2.segments.getD p.segments.length
          default).log.size =
        Record.binary_size ⟨p.activeSegment.latest_offset, ts, key, value⟩) := by
  constructor
  · intro inputs p hok s hs
    obtain ⟨counts, hslim, -⟩ := runAppends_slim hok
    obtain ⟨hne, hlen, -, hseg⟩ := hslim
    obtain ⟨i, hi, rfl⟩ := List.mem_iff_getElem.mp hs
    have hgd : p.segments[i] = p.segments.getD i default :=
      (List.getD_eq_getElem _ _ hi).symm
    rw [hgd]
    exact (hseg i (by omega)).2.2.2.2
  · intro p key value ts hidx hne hfull hfit
    obtain ⟨hok, hsegs, -⟩ := roll_append hidx hne hfull hfit
    have hplenpos : 0 < p.segments.length := List.length_pos.mpr hne
    have hsetlen : (p.segments.set (p.segments.length - 1)
        p.activeSegment.seal).length = p.segments.length := by simp
    have hnewfit : (Segment.new p.activeSegment.latest_offset OFFSET_INTERVAL
        true).log.can_fit (Record.binary_size
          ⟨(Segment.new p.activeSegment.latest_offset OFFSET_INTERVAL
              true).latest_offset, ts, key, value⟩) := by
      show LOG_MAX_SIZE - 0 ≥ _
      have heq : Record.binary_size
          ⟨(Segment.new p.activeSegment.latest_offset OFFSET_INTERVAL
            true).latest_offset, ts, key, value⟩ =
          Record.binary_size ⟨p.activeSegment.latest_offset, ts, key, value⟩ :=
        rfl
      rw [heq]
      omega
    have hbseq : Record.binary_size
        ⟨(Segment.new p.activeSegment.latest_offset OFFSET_INTERVAL
          true).latest_offset, ts, key, value⟩ =
        Record.binary_size ⟨p.activeSegment.latest_offset, ts, key, value⟩ := rfl
    obtain ⟨hnb, -, -, -, hnls⟩ :=
      seg_append_ok_log (s := Segment.new p.activeSegment.latest_offset
        OFFSET_INTERVAL true) hnewfit
    refine ⟨hok, ?_, ?_, ?_, ?_⟩
    · rw [hsegs]
      simp
    · rw [hsegs]
      rw [List.getD_append_right _ _ _ _ (by rw [hsetlen])]
      rw [hsetlen]
      simp only [Nat.sub_self, List.getD_cons_zero]
      rw [hnb]
      rfl
    · rw [hsegs]
      rw [List.getD_append _ _ _ _ (by rw [hsetlen]; omega)]
      rw [getD_set_self (by omega) _ _]
      rfl
    · rw [hsegs]
      rw [List.getD_append_right _ _ _ _ (by rw [hsetlen])]
      rw [hsetlen]
      simp only [Nat.sub_self, List.getD_cons_zero]
      rw [hnls, hbseq]
      exact Nat.zero_add _

/-- Witness for `c5_capacity_and_roll`: the size bound on a fresh one-append
run, and a concrete roll on a nearly full active segment. -/
theorem c5_capacity_and_roll_witness :
    ((Segment.new 0 OFFSET_INTERVAL true).log.size ≤ LOG_MAX_SIZE) ∧
    (let full : Partition :=
      ⟨[⟨⟨[], 4096, 4090, 0, 5⟩, ⟨[], 0, 0, 16⟩, 0, 0, 16, true⟩], 0⟩
     (full.append_record none [0, 0, 1, 0] 0).1 = .ok Unit.unit ∧
      ((full.append_record none [0, 0, 1, 0] 0).2.segments.getD 1
        default).base_offset = 5 ∧
      ((full.append_record none [0, 0, 1, 0] 0).2.segments.getD 0
        default).active = false) := by
  refine ⟨?_, ?_⟩
  · exact c5_capacity_and_roll.1 [] Partition.initEmpty rfl
      (Segment.new 0 OFFSET_INTERVAL true)
      (show _ ∈ [Segment.new 0 OFFSET_INTERVAL true] from
        List.mem_singleton_self _)
  · have h := c5_capacity_and_roll.2
      ⟨[⟨⟨[], 4096, 4090, 0, 5⟩, ⟨[], 0, 0, 16⟩, 0, 0, 16, true⟩], 0⟩
      none [0, 0, 1, 0] 0 (by decide) (by decide) (by decide) (by decide)
    exact ⟨h.1, h.2.2.1, h.2.2.2.1⟩

end Shoju
